import Mathlib

/-!
Verification of the ontology-to-graph conversion core of the repository
(src/backend/ttl_to_neo4j_uploader.py).

The Python source is shallowly embedded as executable Lean definitions:

- sanitize_label, extract_fragment : pure string functions, embedded over
  the character list underlying each string (Python str operations are
  character-wise on these inputs).
- parse_ttl_to_json : the RDF scan (labels / children / parents /
  all_classes), the label fallback fill, the root resolution and the
  recursive tree build.  Python dicts are embedded as insertion-ordered
  association lists (dict assignment keeps the original slot, new keys
  append at the end, which is exactly Python 3 dict behaviour); Python
  sets are embedded as insertion-ordered duplicate-free lists.  The
  unbounded recursive tree build is embedded with an explicit fuel equal
  to the number of known classes, which bounds the depth of every acyclic
  hierarchy (on a cyclic hierarchy the Python code diverges, a documented
  failure mode that is out of scope here).
- traverse_and_upload : the uploader is embedded as the list of database
  operations (node upserts and edge merges) it issues, in issue order.
  The Cypher semantics of those operations (MERGE on a label plus id key,
  SET of the name property, MATCH of both endpoints before MERGE of a
  SUBCLASS_OF edge) is embedded by applyOp on an explicit graph state.
- run_conversion : returns the structured result together with the list
  of database effects (reset, one write transaction per tree), so that
  claims about performed or omitted database mutations are statements
  about that effect list.

Trees with a list of children are encoded with the mutually inductive
JTree/JForest pair (a JForest is isomorphic to List JTree); this keeps
every definition structurally recursive and hence fully evaluable.
-/

/-! ### Label Sanitizer (sanitize_label, source lines 19-23) -/

/-- Python: label.replace(" ", "_").replace("-", "_"), applied per character. -/
def replaceSpaceHyphen (c : Char) : Char :=
  if c = ' ' ∨ c = '-' then '_' else c

/-- Character class [a-zA-Z0-9_] of the regex in sanitize_label. -/
def allowedChar (c : Char) : Bool :=
  c.isAlpha || c.isDigit || c == '_'

/-- The characters surviving re.sub applied after the two replacements. -/
def strippedChars (s : String) : List Char :=
  (s.data.map replaceSpaceHyphen).filter allowedChar

/-- Python: re.match of a leading digit against a string of the class above. -/
def startsWithDigitL : List Char → Bool
  | [] => false
  | c :: _ => c.isDigit

/-- Source sanitize_label: replace space and hyphen by underscore, drop every
character outside [a-zA-Z0-9_], prefix L_ when the result starts with a digit,
and fall back to the literal Unknown when the result is empty. -/
def sanitize_label (label : String) : String :=
  let stripped := strippedChars label
  let prefixed := if startsWithDigitL stripped then 'L' :: '_' :: stripped else stripped
  if prefixed = [] then "Unknown" else String.mk prefixed

/-! ### Fragment extraction (extract_fragment, source lines 26-29) -/

/-- Python str.split with a one-character separator, on character lists. -/
def splitOnChar (sep : Char) : List Char → List (List Char)
  | [] => [[]]
  | c :: rest =>
    match splitOnChar sep rest with
    | [] => [[c]]
    | h :: t => if c = sep then [] :: h :: t else (c :: h) :: t

/-- Python str.rstrip with separator "/". -/
def rstripSlash (cs : List Char) : List Char :=
  (cs.reverse.dropWhile (fun c => c == '/')).reverse

/-- Source extract_fragment: the part after the last hash if the URI contains
one, otherwise the part after the last slash of the URI with trailing slashes
stripped first. -/
def extract_fragment (uri : String) : String :=
  if '#' ∈ uri.data then
    String.mk ((splitOnChar '#' uri.data).getLastD [])
  else
    String.mk ((splitOnChar '/' (rstripSlash uri.data)).getLastD [])

/-! ### RDF graph model -/

/-- An RDF object term: a named entity (rdflib URIRef) or anything else
(literal or blank node); the scan only distinguishes these two cases. -/
inductive RDFTerm where
  | uriref (uri : String)
  | literal (value : String)
deriving DecidableEq, Repr

/-- Python str(o) on a term. -/
def RDFTerm.str : RDFTerm → String
  | .uriref u => u
  | .literal v => v

/-- The two predicates the scan reacts to, and everything else. -/
inductive RDFPred where
  | rdfsLabel
  | rdfsSubClassOf
  | otherPred
deriving DecidableEq, Repr

/-- One RDF triple of the parsed graph, subjects identified by their URI
string. -/
structure Triple where
  s : String
  p : RDFPred
  o : RDFTerm
deriving DecidableEq, Repr

/-! ### Association-list embeddings of the Python dicts and sets -/

/-- Python dict assignment: overwrite in place, append new keys at the end. -/
def setEntry : List (String × String) → String → String → List (String × String)
  | [], k, v => [(k, v)]
  | (k', v') :: rest, k, v =>
    if k' = k then (k, v) :: rest else (k', v') :: setEntry rest k v

/-- Python dict lookup: the value stored at the first (and, by the setEntry
discipline, only) occurrence of the key. -/
def getEntry? : List (String × String) → String → Option String
  | [], _ => none
  | (k', v') :: rest, k => if k' = k then some v' else getEntry? rest k

/-- Python defaultdict(list) append: children[o].append(s). -/
def appendChild : List (String × List String) → String → String → List (String × List String)
  | [], k, v => [(k, [v])]
  | (k', vs) :: rest, k, v =>
    if k' = k then (k', vs ++ [v]) :: rest else (k', vs) :: appendChild rest k v

/-- Python children.get(node, []). -/
def childrenOf : List (String × List String) → String → List String
  | [], _ => []
  | (k', vs) :: rest, k => if k' = k then vs else childrenOf rest k

/-- Python set.add on an insertion-ordered duplicate-free list. -/
def insertSet (l : List String) (x : String) : List String :=
  if x ∈ l then l else l ++ [x]

/-! ### RDF Hierarchy Extractor (parse_ttl_to_json scan, source lines 36-52) -/

/-- The four accumulators of the scan loop of parse_ttl_to_json. -/
structure ParseState where
  children : List (String × List String)
  labels : List (String × String)
  parents : List String
  all_classes : List String
deriving Repr

/-- Body of the scan loop: a label triple records the label of its subject; a
subClassOf triple whose object is a named entity records the child under the
parent, marks the subject as having a parent, and marks both ends as known
classes.  Every other triple is ignored. -/
def scanStep (st : ParseState) (t : Triple) : ParseState :=
  match t.p, t.o with
  | RDFPred.rdfsLabel, o =>
    { st with labels := setEntry st.labels t.s o.str }
  | RDFPred.rdfsSubClassOf, RDFTerm.uriref u =>
    { st with
      children := appendChild st.children u t.s
      parents := insertSet st.parents t.s
      all_classes := insertSet (insertSet st.all_classes t.s) u }
  | _, _ => st

/-- The scan loop over the whole graph. -/
def scanGraph (triples : List Triple) : ParseState :=
  triples.foldl scanStep ⟨[], [], [], []⟩

/-- One step of the label fallback fill: a known class without an explicit
label gets the fragment of its URI, appended at the end of the lookup. -/
def fillStep (ls : List (String × String)) (c : String) : List (String × String) :=
  if (getEntry? ls c).isSome then ls else ls ++ [(c, extract_fragment c)]

/-- Label fallback fill: every known class without an explicit label gets the
fragment of its URI, appended in class enumeration order. -/
def resolveLabels (st : ParseState) : List (String × String) :=
  st.all_classes.foldl fillStep st.labels

/-! ### Root Resolver (source lines 54-66) -/

/-- The ASCII restriction of Python chr.lower(): fold A..Z to a..z and leave
every other character unchanged.  Python str.lower() performs full Unicode
case folding; on ASCII strings the two coincide exactly.  The embedding does
not fix the folding: the root-matching definitions below are parametric in
the folding function, and lowerChar/lowerStr instantiate them for the
executable model (exact whenever labels and the requested root label are
ASCII, as in the concrete examples of this file). -/
def lowerChar (c : Char) : Char :=
  if 'A' ≤ c ∧ c ≤ 'Z' then Char.ofNat (c.toNat + 32) else c

/-- Character-wise folding of a string with lowerChar: the ASCII restriction
of Python str.lower(). -/
def lowerStr (s : String) : String :=
  String.mk (s.data.map lowerChar)

/-- Source get_uri_by_label, parametric in the case folding standing for
Python str.lower(): first entity of the label lookup whose folded label
equals the folded requested label. -/
def get_uri_by_label_folded (lower : String → String) (ls : List (String × String))
    (searchLabel : String) : Option String :=
  (ls.find? (fun e => lower e.2 == lower searchLabel)).map (fun e => e.1)

/-- Source get_uri_by_label of the executable model: the ASCII instance. -/
def get_uri_by_label (ls : List (String × String)) (searchLabel : String) : Option String :=
  get_uri_by_label_folded lowerStr ls searchLabel

/-- Implicit root resolution: known classes never marked as having a parent. -/
def implicitRoots (st : ParseState) : List String :=
  st.all_classes.filter (fun c => decide (c ∉ st.parents))

/-! ### Ontology trees and the Tree Builder (source lines 68-75) -/

mutual
/-- One ontology tree node: id (original URI), label (raw display label) and
the ordered children. -/
inductive JTree where
  | node (id : String) (label : String) (children : JForest)
deriving Repr
/-- The ordered list of children of a tree node. -/
inductive JForest where
  | nil
  | cons (hd : JTree) (tl : JForest)
deriving Repr
end

/-- The children forest as a plain list. -/
def JForest.toList : JForest → List JTree
  | .nil => []
  | .cons h t => h :: JForest.toList t

/-- Python labels.get(node, extract_fragment(str(node))). -/
def labelsGet (ls : List (String × String)) (node : String) : String :=
  (getEntry? ls node).getD (extract_fragment node)

/-- A plain list of trees as a forest. -/
def forestOfList : List JTree → JForest
  | [] => JForest.nil
  | h :: t => JForest.cons h (forestOfList t)

/-- Source build_json_tree, with explicit fuel standing for the unbounded
Python recursion depth; with fuel at least the length of the longest
child chain the result is exactly the Python tree (parse_ttl_to_json below
passes the number of known classes, which bounds every acyclic chain). -/
def build_json_tree (ch : List (String × List String)) (ls : List (String × String)) :
    Nat → String → JTree
  | 0 => fun node => JTree.node node (labelsGet ls node) JForest.nil
  | fuel + 1 => fun node =>
    JTree.node node (labelsGet ls node)
      (forestOfList ((childrenOf ch node).map (build_json_tree ch ls fuel)))

/-- Source parse_ttl_to_json, parametric in the case folding standing for
Python str.lower(): scan the graph, fill in fallback labels, resolve the
roots (explicitly by label, with the Python truthiness convention that an
empty root label counts as absent, or implicitly as the classes without a
parent) and build one tree per root.  The explicit-label branch raises the
root-not-found error, naming the requested label in single quotes as the
Python f-string does, before anything else happens. -/
def parse_ttl_to_json_folded (lower : String → String) (triples : List Triple)
    (root_label : Option String) : Except String (List JTree) :=
  let st := scanGraph triples
  let ls := resolveLabels st
  let fuel := st.all_classes.length
  match root_label with
  | some rl =>
    if rl = "" then
      Except.ok ((implicitRoots st).map (build_json_tree st.children ls fuel))
    else
      match get_uri_by_label_folded lower ls rl with
      | none => Except.error ("Root label \x27" ++ rl ++ "\x27 not found in TTL file.")
      | some r => Except.ok [build_json_tree st.children ls fuel r]
  | none => Except.ok ((implicitRoots st).map (build_json_tree st.children ls fuel))

/-- Source parse_ttl_to_json of the executable model: the ASCII instance. -/
def parse_ttl_to_json (triples : List Triple) (root_label : Option String) :
    Except String (List JTree) :=
  parse_ttl_to_json_folded lowerStr triples root_label

/-! ### Node counting (count_nodes, source lines 78-82) -/

mutual
/-- Source count_nodes: one for the node plus the counts of the children. -/
def count_nodes : JTree → Nat
  | JTree.node _ _ cs => 1 + count_forest cs
/-- Sum of count_nodes over a forest. -/
def count_forest : JForest → Nat
  | JForest.nil => 0
  | JForest.cons h t => count_nodes h + count_forest t
end

/-! ### Graph Uploader (upload_node, create_relationship, traverse_and_upload,
source lines 85-119) -/

/-- One database write operation issued by the uploader. -/
inductive Op where
  | upsert (node_id : String) (name : String) (assigned_label : String)
  | mergeEdge (parent_id : String) (child_id : String)
deriving DecidableEq, Repr

/-- Source upload_node: MERGE a node keyed by the dynamic label and the id
property, then SET its name property to the raw label. -/
def upload_node (node_id : String) (label : String) (assigned_label : String) : Op :=
  Op.upsert node_id label assigned_label

/-- Source create_relationship: MATCH both endpoints by id, then MERGE one
SUBCLASS_OF edge from the child to the parent. -/
def create_relationship (parent_id : String) (child_id : String) : Op :=
  Op.mergeEdge parent_id child_id

mutual
/-- Source traverse_and_upload as the list of issued operations: compute the
sanitized label, assign the node its own sanitized label at level 0 or 1 and
the tag assigned to its parent at level 2 or deeper, and, unless the id is
falsy (empty), upsert the node, merge the edge to the parent when there is
one, and recurse into the children in order.  From the actual entry point
(level 0, no parent) the parent label argument is present at every level
above 0, so the fallback branch of the match is never taken there. -/
def traverse_and_upload : JTree → Option String → Option String → Nat → List Op
  | JTree.node id label children, parent_id, parent_label, level =>
    let current_label := sanitize_label label
    let assigned_label := if level ≤ 1 then current_label else parent_label.getD current_label
    if id = "" then []
    else
      upload_node id label assigned_label ::
        ((match parent_id with
          | some pid => [create_relationship pid id]
          | none => []) ++
          traverse_children children id assigned_label level)
/-- The recursion of traverse_and_upload over the children of a node, which
are visited at the next level with the node as parent. -/
def traverse_children : JForest → String → String → Nat → List Op
  | JForest.nil, _, _, _ => []
  | JForest.cons c rest, pid, ptag, level =>
    traverse_and_upload c (some pid) (some ptag) (level + 1) ++
      traverse_children rest pid ptag level
end

/-- The upsert operations of an operation list, as (id, name, tag) rows. -/
def upsertTriples (ops : List Op) : List (String × String × String) :=
  ops.filterMap (fun o =>
    match o with
    | Op.upsert i n g => some (i, n, g)
    | Op.mergeEdge _ _ => none)

/-- Number of node upserts an operation list performs. -/
def countUpserts (ops : List Op) : Nat :=
  (upsertTriples ops).length

/-- The edge merges of an operation list, as (parent id, child id) rows. -/
def mergesOf (ops : List Op) : List (String × String) :=
  ops.filterMap (fun o =>
    match o with
    | Op.upsert _ _ _ => none
    | Op.mergeEdge p c => some (p, c))

mutual
/-- Does every tree node carry a non-empty id? -/
def allIdsNonempty : JTree → Bool
  | JTree.node id _ cs => (!(id == "")) && allIdsNonemptyF cs
/-- Forest version of allIdsNonempty. -/
def allIdsNonemptyF : JForest → Bool
  | JForest.nil => true
  | JForest.cons h t => allIdsNonempty h && allIdsNonemptyF t
end

/-! ### Concrete example graph used by several claims (the Cat/Mammal/Animal
hierarchy of the specification) -/

/-- Triples (A subClassOf B), (B subClassOf C) with explicit labels Cat,
Mammal, Animal. -/
def exTriples : List Triple :=
  [ ⟨"ex#A", RDFPred.rdfsSubClassOf, RDFTerm.uriref "ex#B"⟩,
    ⟨"ex#B", RDFPred.rdfsSubClassOf, RDFTerm.uriref "ex#C"⟩,
    ⟨"ex#A", RDFPred.rdfsLabel, RDFTerm.literal "Cat"⟩,
    ⟨"ex#B", RDFPred.rdfsLabel, RDFTerm.literal "Mammal"⟩,
    ⟨"ex#C", RDFPred.rdfsLabel, RDFTerm.literal "Animal"⟩ ]

/-- The tree the parser builds for exTriples: C with child B with child A. -/
def exC2tree : JTree :=
  JTree.node "ex#C" "Animal"
    (JForest.cons
      (JTree.node "ex#B" "Mammal"
        (JForest.cons (JTree.node "ex#A" "Cat" JForest.nil) JForest.nil))
      JForest.nil)

/-! ### Tag bookkeeping view of the uploader

The same recursion as traverse_and_upload, recording for every visited node
its id, raw label, assigned type tag and depth, keeping the tree structure.
This is the vocabulary in which the label-inheritance claims are stated; the
link to the issued operations is proved below (the upsert rows of
traverse_and_upload are exactly the rows of this view, in the same order). -/

mutual
/-- A visited node with its assigned type tag and depth. -/
inductive AnnTree where
  | node (id : String) (rawName : String) (tag : String) (depth : Nat) (children : AnnForest)
deriving Repr
/-- The visited children of a visited node, in order. -/
inductive AnnForest where
  | nil
  | cons (hd : AnnTree) (tl : AnnForest)
deriving Repr
end

/-- Id of a visited node. -/
def AnnTree.id : AnnTree → String
  | .node i _ _ _ _ => i

/-- Raw display label of a visited node. -/
def AnnTree.rawName : AnnTree → String
  | .node _ n _ _ _ => n

/-- Assigned type tag of a visited node. -/
def AnnTree.tag : AnnTree → String
  | .node _ _ g _ _ => g

/-- Depth of a visited node (0 at the root of the upload). -/
def AnnTree.depth : AnnTree → Nat
  | .node _ _ _ d _ => d

/-- Visited children of a visited node. -/
def AnnTree.children : AnnTree → AnnForest
  | .node _ _ _ _ cs => cs

/-- A visited forest as a plain list. -/
def AnnForest.toList : AnnForest → List AnnTree
  | .nil => []
  | .cons h t => h :: AnnForest.toList t

mutual
/-- The tag assignment of traverse_and_upload: a node at level 0 or 1 is
tagged with its own sanitized label, a deeper node with the tag assigned to
its parent; a node with an empty id is skipped with its whole subtree.
Returns none exactly when the node is skipped. -/
def annotate : JTree → Option String → Nat → Option AnnTree
  | JTree.node id label children, parent_label, level =>
    let current_label := sanitize_label label
    let assigned_label := if level ≤ 1 then current_label else parent_label.getD current_label
    if id = "" then none
    else some (AnnTree.node id label assigned_label level
      (annotateForest children assigned_label level))
/-- Tag assignment over the children of a visited node. -/
def annotateForest : JForest → String → Nat → AnnForest
  | JForest.nil, _, _ => AnnForest.nil
  | JForest.cons c rest, ptag, level =>
    match annotate c (some ptag) (level + 1) with
    | none => annotateForest rest ptag level
    | some a => AnnForest.cons a (annotateForest rest ptag level)
end

mutual
/-- All visited nodes of an annotated tree, in depth-first pre-order. -/
def allAnn : AnnTree → List AnnTree
  | AnnTree.node i n g d cs => AnnTree.node i n g d cs :: allAnnForest cs
/-- All visited nodes of an annotated forest, in depth-first pre-order. -/
def allAnnForest : AnnForest → List AnnTree
  | AnnForest.nil => []
  | AnnForest.cons h t => allAnn h ++ allAnnForest t
end

/-- All nodes visited by an upload of the tree t (entry point: no parent,
level 0), in visit order. -/
def allAnnOf (t : JTree) : List AnnTree :=
  match annotate t none 0 with
  | none => []
  | some a => allAnn a

/-! ### Graph database semantics of the issued operations

A database node is keyed by its dynamic label (tag) together with its id
property, matching the Cypher MERGE pattern of upload_node; an edge is a
SUBCLASS_OF pair (child id, parent id), matching create_relationship, whose
MATCH clauses require both endpoints to exist before the edge is merged. -/

/-- One graph database node: id property, dynamic label, name property. -/
structure DBNode where
  id : String
  tag : String
  name : String
deriving DecidableEq, Repr

/-- The graph database state: nodes in creation order, edges in creation
order. -/
structure GraphDB where
  nodes : List DBNode
  edges : List (String × String)
deriving DecidableEq, Repr

/-- Does a database node match the MERGE pattern (n:tag then id: id)? -/
def matchKey (id tag : String) (n : DBNode) : Bool :=
  n.id == id && n.tag == tag

/-- Is some node matching the pattern present? -/
def hasKey (ns : List DBNode) (id tag : String) : Bool :=
  ns.any (matchKey id tag)

/-- SET n.name on every node matching the pattern. -/
def setName (ns : List DBNode) (id tag nm : String) : List DBNode :=
  ns.map (fun n => if matchKey id tag n then { n with name := nm } else n)

/-- Semantics of upload_node: MERGE matches the label/id pattern and creates
the node when no match exists, then SET writes the name property of every
matched or created node. -/
def upsertStep (ns : List DBNode) (id tag nm : String) : List DBNode :=
  if hasKey ns id tag then setName ns id tag nm else ns ++ [⟨id, tag, nm⟩]

/-- Is some node with the given id property present (any label)? -/
def hasId (ns : List DBNode) (i : String) : Bool :=
  ns.any (fun n => n.id == i)

/-- Semantics of one operation: an upsert rewrites the node table; an edge
merge adds the SUBCLASS_OF pair when both endpoints exist and the pair is not
already present, and does nothing otherwise. -/
def applyOp (db : GraphDB) : Op → GraphDB
  | Op.upsert id nm tag => { db with nodes := upsertStep db.nodes id tag nm }
  | Op.mergeEdge pid cid =>
    if hasId db.nodes pid && hasId db.nodes cid && !(decide ((cid, pid) ∈ db.edges)) then
      { db with edges := db.edges ++ [(cid, pid)] }
    else db

/-- Running a whole operation list against a database state. -/
def applyOps (ops : List Op) (db : GraphDB) : GraphDB :=
  ops.foldl applyOp db

/-- The evolution of the node table alone (edge merges never touch it). -/
def nodesApply : List Op → List DBNode → List DBNode
  | [], ns => ns
  | Op.upsert id nm tag :: rest, ns => nodesApply rest (upsertStep ns id tag nm)
  | Op.mergeEdge _ _ :: rest, ns => nodesApply rest ns

/-- Does the operation list upsert the given label/id key somewhere? -/
def hasUpsertKey (id tag : String) : List Op → Bool
  | [] => false
  | Op.upsert i _ g :: rest => (i == id && g == tag) || hasUpsertKey id tag rest
  | Op.mergeEdge _ _ :: rest => hasUpsertKey id tag rest

/-- Does every node matching the pattern already carry this name? -/
def allName (ns : List DBNode) (id tag nm : String) : Bool :=
  ns.all (fun n => !matchKey id tag n || n.name == nm)

/-- Each edge merge of the list is preceded (within the list, or by the given
set of already guaranteed ids) by upserts of both of its endpoints. -/
def groundedOps (known : List String) : List Op → Bool
  | [] => true
  | Op.upsert id _ _ :: rest => groundedOps (id :: known) rest
  | Op.mergeEdge pid cid :: rest =>
    decide (pid ∈ known) && decide (cid ∈ known) && groundedOps known rest

/-- The guaranteed-id set after the upserts of an operation list. -/
def extendKnown (known : List String) : List Op → List String
  | [] => known
  | Op.upsert id _ _ :: rest => extendKnown (id :: known) rest
  | Op.mergeEdge _ _ :: rest => extendKnown known rest

/-- Number of edge merges executed while one of their endpoints is missing
from the database (the merge precondition violations), when the operation
list runs against the given state. -/
def mergeFailures : List Op → GraphDB → Nat
  | [], _ => 0
  | Op.mergeEdge pid cid :: rest, db =>
    (if hasId db.nodes pid && hasId db.nodes cid then 0 else 1) +
      mergeFailures rest (applyOp db (Op.mergeEdge pid cid))
  | Op.upsert id nm tag :: rest, db =>
    mergeFailures rest (applyOp db (Op.upsert id nm tag))

/-! ### Conversion Orchestrator (run_conversion, source lines 128-149) -/

/-- One database side effect of a commit-mode run. -/
inductive DBEffect where
  | reset
  | writeTx (ops : List Op)
deriving DecidableEq, Repr

/-- The structured result of run_conversion. -/
inductive ConvResult where
  | preview (json_data : List JTree)
  | success (nodes_uploaded : Nat)
deriving Repr

/-- Source run_conversion, parametric in the case folding and returning the
result together with the ordered list of database effects it performs.  The
OWL-to-Turtle normalization and the driver construction are plumbing outside
the core; the embedding takes the parsed triples directly.  A parse error
(root label not found) aborts before any database effect; preview mode
returns the trees with no effect; commit mode resets the database, computes
the total node count over the built trees, and runs one write transaction
per tree. -/
def run_conversion_folded (lower : String → String) (triples : List Triple)
    (root_label : Option String) (preview_only : Bool) :
    Except String ConvResult × List DBEffect :=
  match parse_ttl_to_json_folded lower triples root_label with
  | Except.error e => (Except.error e, [])
  | Except.ok json_data =>
    if preview_only then (Except.ok (ConvResult.preview json_data), [])
    else
      (Except.ok (ConvResult.success ((json_data.map count_nodes).sum)),
        DBEffect.reset :: json_data.map (fun tree =>
          DBEffect.writeTx (traverse_and_upload tree none none 0)))

/-- Source run_conversion of the executable model: the ASCII instance. -/
def run_conversion (triples : List Triple) (root_label : Option String)
    (preview_only : Bool) : Except String ConvResult × List DBEffect :=
  run_conversion_folded lowerStr triples root_label preview_only

/-! ### Concrete graph exhibiting empty and missing resolved labels -/

/-- A graph with a subClassOf subject whose URI ends in a hash (its fragment
is empty) and a subClassOf triple whose object is not a named entity (its
subject is never recorded as a known class). -/
def emptyFragTriples : List Triple :=
  [ ⟨"http://example.org/onto#", RDFPred.rdfsSubClassOf,
      RDFTerm.uriref "http://example.org/onto#B"⟩,
    ⟨"urn:D", RDFPred.rdfsSubClassOf, RDFTerm.literal "x"⟩ ]

/-! ## Theorems -/

/-! ### Basic facts about the sanitizer -/

theorem mem_strippedChars_allowed {s : String} {c : Char}
    (h : c ∈ strippedChars s) : allowedChar c = true :=
  (List.mem_filter.mp h).2

theorem data_mk (l : List Char) : (String.mk l).data = l := rfl

theorem sanitize_label_eq (s : String) :
    sanitize_label s =
      if startsWithDigitL (strippedChars s) = true then String.mk ('L' :: '_' :: strippedChars s)
      else if strippedChars s = [] then "Unknown" else String.mk (strippedChars s) := by
  by_cases hd : startsWithDigitL (strippedChars s) = true
  · simp [sanitize_label, hd]
  · by_cases he : strippedChars s = []
    · simp [sanitize_label, he, startsWithDigitL]
    · simp [sanitize_label, hd, he]

theorem unknown_chars : ∀ c ∈ ("Unknown" : String).data, allowedChar c = true := by
  decide

/-- C3: for every input string, sanitize_label returns only characters of the
class [A-Za-z0-9_]; the result never starts with a digit; when the stripped
intermediate result is empty the literal Unknown is returned (in particular
for the input consisting of three exclamation marks); when the stripped
result starts with a digit the prefix L_ is added; otherwise the stripped
result itself is returned. -/
theorem claim_C3_sanitize (s : String) :
    (∀ c ∈ (sanitize_label s).data, allowedChar c = true) ∧
    startsWithDigitL (sanitize_label s).data = false ∧
    (strippedChars s = [] → sanitize_label s = "Unknown") ∧
    (startsWithDigitL (strippedChars s) = true →
      sanitize_label s = String.mk ('L' :: '_' :: strippedChars s)) ∧
    (strippedChars s ≠ [] → startsWithDigitL (strippedChars s) = false →
      sanitize_label s = String.mk (strippedChars s)) ∧
    sanitize_label "!!!" = "Unknown" := by
  refine ⟨?_, ?_, ?_, ?_, ?_, by decide⟩
  · rw [sanitize_label_eq]
    split_ifs with hd he
    · intro c hc
      rw [data_mk] at hc
      simp only [List.mem_cons] at hc
      rcases hc with rfl | rfl | hc
      · decide
      · decide
      · exact mem_strippedChars_allowed hc
    · exact unknown_chars
    · intro c hc
      rw [data_mk] at hc
      exact mem_strippedChars_allowed hc
  · rw [sanitize_label_eq]
    split_ifs with hd he
    · rfl
    · rfl
    · simp only [Bool.not_eq_true] at hd
      exact hd
  · intro he
    rw [sanitize_label_eq, if_neg (by simp [he, startsWithDigitL]), if_pos he]
  · intro hd
    rw [sanitize_label_eq, if_pos hd]
  · intro hne hdf
    rw [sanitize_label_eq, if_neg (by simp [hdf]), if_neg hne]

/-- Witness for C3 at the concrete input of the claim: the input of three
exclamation marks strips to the empty list and is mapped to Unknown. -/
theorem claim_C3_witness :
    strippedChars "!!!" = [] ∧ sanitize_label "!!!" = "Unknown" :=
  ⟨by decide, (claim_C3_sanitize "!!!").2.2.1 (by decide)⟩

/-- C7: with the preview flag set, run_conversion performs no database effect
at all (the effect list is empty: no reset, no write transaction), and its
result is exactly the preview of the ordered tree sequence the parser built
(or the parser error, had parsing failed). -/
theorem claim_C7_preview_pure (triples : List Triple) (root_label : Option String) :
    (run_conversion triples root_label true).2 = [] ∧
    (run_conversion triples root_label true).1 =
      (parse_ttl_to_json triples root_label).map ConvResult.preview := by
  unfold run_conversion run_conversion_folded parse_ttl_to_json
  cases parse_ttl_to_json_folded lowerStr triples root_label <;> simp [Except.map]

/-- C2 is false on the code: for the Cat/Mammal/Animal hierarchy the parser
does build the tree C with child B with child A, but the uploader tags node B
(depth 1) with its own sanitized label Mammal, not Animal, and node A
(depth 2) inherits Mammal from B, not Animal.  The (id, depth, tag) view of
the visited nodes and the (id, name, tag) upsert rows actually issued are
pinned down explicitly: the single row for ex#B carries tag Mammal, the
single row for ex#A carries tag Mammal, and Mammal is not Animal, refuting
the claimed Animal tags for B and A. -/
theorem claim_C2_counterexample :
    parse_ttl_to_json exTriples none = Except.ok [exC2tree] ∧
    (allAnnOf exC2tree).map (fun a => (a.id, a.depth, a.tag)) =
      [("ex#C", 0, "Animal"), ("ex#B", 1, "Mammal"), ("ex#A", 2, "Mammal")] ∧
    upsertTriples (traverse_and_upload exC2tree none none 0) =
      [("ex#C", "Animal", "Animal"), ("ex#B", "Mammal", "Mammal"), ("ex#A", "Cat", "Mammal")] ∧
    ("Mammal" : String) ≠ "Animal" :=
  ⟨rfl, rfl, rfl, by decide⟩

/-- C2 amended: the uploader assigns tag Animal to node C (depth 0), tag
Mammal to node B (depth 1, its own sanitized label), and tag Mammal to node A
(depth 2, inheriting the tag assigned to its parent B); the issued upsert
rows carry exactly these tags. -/
theorem claim_C2_amended :
    parse_ttl_to_json exTriples none = Except.ok [exC2tree] ∧
    (allAnnOf exC2tree).map (fun a => (a.id, a.depth, a.tag)) =
      [("ex#C", 0, "Animal"), ("ex#B", 1, "Mammal"), ("ex#A", 2, "Mammal")] ∧
    upsertTriples (traverse_and_upload exC2tree none none 0) =
      [("ex#C", "Animal", "Animal"), ("ex#B", "Mammal", "Mammal"), ("ex#A", "Cat", "Mammal")] :=
  ⟨rfl, rfl, rfl⟩

/-! ### Characterization of the scan accumulators -/

theorem mem_insertSet {l : List String} {x y : String} :
    y ∈ insertSet l x ↔ y ∈ l ∨ y = x := by
  unfold insertSet
  by_cases h : x ∈ l
  · simp only [if_pos h]
    constructor
    · exact fun hy => Or.inl hy
    · rintro (hy | rfl)
      · exact hy
      · exact h
  · simp [if_neg h, List.mem_append]

theorem parents_scan (ts : List Triple) : ∀ (st : ParseState) (c : String),
    c ∈ (ts.foldl scanStep st).parents ↔
      c ∈ st.parents ∨ ∃ u, Triple.mk c RDFPred.rdfsSubClassOf (RDFTerm.uriref u) ∈ ts := by
  induction ts with
  | nil => intro st c; simp
  | cons t rest ih =>
    intro st c
    rw [List.foldl_cons, ih]
    obtain ⟨s0, p0, o0⟩ := t
    cases p0 <;> cases o0 <;>
      simp [scanStep, mem_insertSet, Triple.mk.injEq, exists_or] <;> tauto

theorem all_classes_scan (ts : List Triple) : ∀ (st : ParseState) (c : String),
    c ∈ (ts.foldl scanStep st).all_classes ↔
      c ∈ st.all_classes ∨
        (∃ u, Triple.mk c RDFPred.rdfsSubClassOf (RDFTerm.uriref u) ∈ ts) ∨
        (∃ s, Triple.mk s RDFPred.rdfsSubClassOf (RDFTerm.uriref c) ∈ ts) := by
  induction ts with
  | nil => intro st c; simp
  | cons t rest ih =>
    intro st c
    rw [List.foldl_cons, ih]
    obtain ⟨s0, p0, o0⟩ := t
    cases p0 <;> cases o0 <;>
      simp [scanStep, mem_insertSet, Triple.mk.injEq, exists_or] <;> tauto

/-- C4: without an explicit root label, the resolved roots are exactly the
known classes (participants of a subClassOf triple with a named object) that
are never the subject of such a triple (never marked as having a parent); on
the Cat/Mammal/Animal graph the resolved root list is exactly C, and the one
built tree is C with child B with child A. -/
theorem claim_C4_roots :
    (∀ (ts : List Triple) (c : String),
      c ∈ implicitRoots (scanGraph ts) ↔
        ((∃ u, Triple.mk c RDFPred.rdfsSubClassOf (RDFTerm.uriref u) ∈ ts) ∨
          (∃ s, Triple.mk s RDFPred.rdfsSubClassOf (RDFTerm.uriref c) ∈ ts)) ∧
          ¬ ∃ u, Triple.mk c RDFPred.rdfsSubClassOf (RDFTerm.uriref u) ∈ ts) ∧
    implicitRoots (scanGraph exTriples) = ["ex#C"] ∧
    parse_ttl_to_json exTriples none = Except.ok [exC2tree] := by
  refine ⟨?_, rfl, rfl⟩
  intro ts c
  unfold implicitRoots scanGraph
  rw [List.mem_filter]
  simp only [decide_eq_true_eq]
  rw [all_classes_scan, parents_scan]
  simp only [List.not_mem_nil, false_or]

/-! ### Characterization of the resolved label lookup -/

theorem getEntry?_setEntry (k v c : String) : ∀ ls,
    getEntry? (setEntry ls k v) c = if k = c then some v else getEntry? ls c := by
  intro ls
  induction ls with
  | nil => simp [setEntry, getEntry?]
  | cons e rest ih =>
    obtain ⟨k', v'⟩ := e
    by_cases h1 : k' = k
    · subst h1
      by_cases h2 : k' = c <;> simp [setEntry, getEntry?, h2]
    · by_cases h2 : k' = c
      · subst h2
        have h3 : ¬ k = k' := fun hh => h1 hh.symm
        simp [setEntry, getEntry?, h1, h3]
      · simp [setEntry, getEntry?, h1, h2, ih]

theorem getEntry?_append_single (k v c : String) : ∀ ls,
    getEntry? (ls ++ [(k, v)]) c =
      match getEntry? ls c with
      | some w => some w
      | none => if k = c then some v else none := by
  intro ls
  induction ls with
  | nil => simp [getEntry?]
  | cons e rest ih =>
    obtain ⟨k', v'⟩ := e
    by_cases h : k' = c <;> simp [getEntry?, h, ih]

theorem getEntry?_fill_stable (c : String) : ∀ (cs : List String) (ls : List (String × String)),
    (getEntry? ls c).isSome = true →
    getEntry? (cs.foldl fillStep ls) c = getEntry? ls c := by
  intro cs
  induction cs with
  | nil => intro ls _; rfl
  | cons c' rest ih =>
    intro ls hs
    rw [List.foldl_cons]
    by_cases h : (getEntry? ls c').isSome = true
    · rw [show fillStep ls c' = ls from if_pos h]
      exact ih ls hs
    · rw [show fillStep ls c' = ls ++ [(c', extract_fragment c')] from
        if_neg (by simpa using h)]
      have hkeep : getEntry? (ls ++ [(c', extract_fragment c')]) c = getEntry? ls c := by
        rw [getEntry?_append_single]
        obtain ⟨w, hw⟩ := Option.isSome_iff_exists.mp hs
        rw [hw]
      rw [ih _ (by rw [hkeep]; exact hs), hkeep]

theorem getEntry?_fill (c : String) : ∀ (cs : List String) (ls : List (String × String)),
    c ∈ cs →
    getEntry? (cs.foldl fillStep ls) c =
      some ((getEntry? ls c).getD (extract_fragment c)) := by
  intro cs
  induction cs with
  | nil => intro ls h; simp at h
  | cons c' rest ih =>
    intro ls hmem
    rw [List.foldl_cons]
    by_cases hc : c = c'
    · subst hc
      by_cases h : (getEntry? ls c).isSome = true
      · rw [show fillStep ls c = ls from if_pos h]
        obtain ⟨w, hw⟩ := Option.isSome_iff_exists.mp h
        rw [getEntry?_fill_stable c rest ls h, hw]
        rfl
      · rw [show fillStep ls c = ls ++ [(c, extract_fragment c)] from if_neg (by simpa using h)]
        have hnone : getEntry? ls c = none := by
          revert h
          cases getEntry? ls c <;> simp
        have hnew : getEntry? (ls ++ [(c, extract_fragment c)]) c = some (extract_fragment c) := by
          rw [getEntry?_append_single, hnone, if_pos rfl]
        rw [getEntry?_fill_stable c rest _ (by rw [hnew]; rfl), hnew, hnone]
        rfl
    · have hmem' : c ∈ rest := by
        rcases List.mem_cons.mp hmem with h | h
        · exact absurd h hc
        · exact h
      by_cases h : (getEntry? ls c').isSome = true
      · rw [show fillStep ls c' = ls from if_pos h]
        exact ih ls hmem'
      · rw [show fillStep ls c' = ls ++ [(c', extract_fragment c')] from if_neg (by simpa using h)]
        have hkeep : getEntry? (ls ++ [(c', extract_fragment c')]) c = getEntry? ls c := by
          rw [getEntry?_append_single]
          cases hg : getEntry? ls c
          · rw [if_neg (fun hh => hc hh.symm)]
          · rfl
        rw [ih _ hmem', hkeep]

theorem labels_scan (ts : List Triple) : ∀ (st : ParseState) (c : String),
    (getEntry? (ts.foldl scanStep st).labels c).isSome = true ↔
      (getEntry? st.labels c).isSome = true ∨ ∃ o, Triple.mk c RDFPred.rdfsLabel o ∈ ts := by
  induction ts with
  | nil => intro st c; simp
  | cons t rest ih =>
    intro st c
    rw [List.foldl_cons, ih]
    obtain ⟨s0, p0, o0⟩ := t
    cases p0 <;> cases o0 <;>
      simp [scanStep, getEntry?_setEntry, Triple.mk.injEq, exists_or] <;>
      by_cases h : s0 = c <;> simp [h, exists_or] <;> tauto

/-- C8 is false on the code: in emptyFragTriples the entity whose URI ends in
a hash participates in a subClassOf triple and its resolved label is the
empty string (its URI fragment), not a non-empty label; moreover the subject
of the subClassOf triple with a literal object participates in a subClassOf
triple and has no resolved label at all. -/
theorem claim_C8_counterexample :
    "http://example.org/onto#" ∈ (scanGraph emptyFragTriples).all_classes ∧
    getEntry? (resolveLabels (scanGraph emptyFragTriples)) "http://example.org/onto#" = some "" ∧
    (Triple.mk "urn:D" RDFPred.rdfsSubClassOf (RDFTerm.literal "x") ∈ emptyFragTriples) ∧
    getEntry? (resolveLabels (scanGraph emptyFragTriples)) "urn:D" = none := by
  refine ⟨by decide, rfl, by decide, rfl⟩

/-- C8 amended: after extraction every known class (entity of a subClassOf
triple with a named-entity object) has a resolved label, namely its explicit
label when some label triple for it exists and otherwise the fragment of its
URI; the resolved label is not always non-empty (a URI ending in a hash or
slash yields the empty fragment), and subjects of subClassOf triples with
non-named objects are not covered. -/
theorem claim_C8_amended (ts : List Triple) (c : String)
    (h : c ∈ (scanGraph ts).all_classes) :
    getEntry? (resolveLabels (scanGraph ts)) c =
      some ((getEntry? (scanGraph ts).labels c).getD (extract_fragment c)) ∧
    ((getEntry? (scanGraph ts).labels c).isSome = true ↔
      ∃ o, Triple.mk c RDFPred.rdfsLabel o ∈ ts) := by
  constructor
  · unfold resolveLabels
    exact getEntry?_fill c _ _ h
  · have hinit := labels_scan ts ⟨[], [], [], []⟩ c
    simpa [scanGraph, getEntry?] using hinit

/-- Witness for C8 amended at a concrete known class: the hash-terminated URI
is a known class and its resolved label is its (empty) explicit-or-fragment
label. -/
theorem claim_C8_witness :
    "http://example.org/onto#" ∈ (scanGraph emptyFragTriples).all_classes ∧
    getEntry? (resolveLabels (scanGraph emptyFragTriples)) "http://example.org/onto#" =
      some ((getEntry? (scanGraph emptyFragTriples).labels "http://example.org/onto#").getD
        (extract_fragment "http://example.org/onto#")) :=
  ⟨by decide, (claim_C8_amended emptyFragTriples "http://example.org/onto#" (by decide)).1⟩

/-! ### Root-not-found behaviour -/

theorem parse_folded_explicit (lower : String → String) (ts : List Triple) (rl : String)
    (hne : rl ≠ "") :
    parse_ttl_to_json_folded lower ts (some rl) =
      match get_uri_by_label_folded lower (resolveLabels (scanGraph ts)) rl with
      | none => Except.error ("Root label \x27" ++ rl ++ "\x27 not found in TTL file.")
      | some r => Except.ok [build_json_tree (scanGraph ts).children
          (resolveLabels (scanGraph ts)) (scanGraph ts).all_classes.length r] := by
  simp only [parse_ttl_to_json_folded]
  rw [if_neg hne]

/-- C5: for every case-folding function standing for Python str.lower() (the
statement is parametric, so it holds in particular for the full Unicode
folding the program uses; the executable model run_conversion is the
lowerStr instance, exact on ASCII data): when an explicit (non-empty, by the
Python truthiness convention) root label matches no resolved label under the
folding, the whole conversion fails with the root-not-found error naming the
requested label in quotes, returns no partial output and performs no
database effect (empty effect list: no reset, no write) in either mode; when
some resolved label does match under the same folding, the parser succeeds,
so that error is not raised. -/
theorem claim_C5_root_not_found (lower : String → String) (ts : List Triple) (rl : String)
    (po : Bool) (hne : rl ≠ "") :
    ((∀ e ∈ resolveLabels (scanGraph ts), lower e.2 ≠ lower rl) →
      run_conversion_folded lower ts (some rl) po =
        (Except.error ("Root label \x27" ++ rl ++ "\x27 not found in TTL file."), [])) ∧
    ((∃ e ∈ resolveLabels (scanGraph ts), lower e.2 = lower rl) →
      ∃ trees, parse_ttl_to_json_folded lower ts (some rl) = Except.ok trees) ∧
    run_conversion ts (some rl) po = run_conversion_folded lowerStr ts (some rl) po := by
  refine ⟨?_, ?_, rfl⟩
  · intro hno
    have hfind : (resolveLabels (scanGraph ts)).find?
        (fun e => lower e.2 == lower rl) = none := by
      rw [List.find?_eq_none]
      intro e he
      simp only [beq_iff_eq]
      exact hno e he
    have hget : get_uri_by_label_folded lower (resolveLabels (scanGraph ts)) rl = none := by
      unfold get_uri_by_label_folded
      rw [hfind]
      rfl
    have hparse : parse_ttl_to_json_folded lower ts (some rl) =
        Except.error ("Root label \x27" ++ rl ++ "\x27 not found in TTL file.") := by
      rw [parse_folded_explicit lower ts rl hne, hget]
    unfold run_conversion_folded
    rw [hparse]
  · intro hyes
    cases hf : (resolveLabels (scanGraph ts)).find?
        (fun e => lower e.2 == lower rl) with
    | none =>
      obtain ⟨e, he, hp⟩ := hyes
      rw [List.find?_eq_none] at hf
      exact absurd (by simp [hp] : (fun e => lower e.2 == lower rl) e = true)
        (by simpa using hf e he)
    | some e0 =>
      have hget : get_uri_by_label_folded lower (resolveLabels (scanGraph ts)) rl =
          some e0.1 := by
        unfold get_uri_by_label_folded
        rw [hf]
        rfl
      exact ⟨_, by rw [parse_folded_explicit lower ts rl hne, hget]⟩

/-- Witness for C5 at the concrete inputs of the claim, instantiating the
folding with the ASCII instance (exact here, all data being ASCII): the
label Nonexistent matches nothing in the Cat/Mammal/Animal graph and the
whole conversion fails with the error naming it and an empty effect list,
while the label animal matches Animal case-insensitively and parsing
succeeds. -/
theorem claim_C5_witness :
    run_conversion_folded lowerStr exTriples (some "Nonexistent") false =
      (Except.error "Root label \x27Nonexistent\x27 not found in TTL file.", []) ∧
    ∃ trees, parse_ttl_to_json_folded lowerStr exTriples (some "animal") = Except.ok trees :=
  ⟨(claim_C5_root_not_found lowerStr exTriples "Nonexistent" false (by decide)).1 (by decide),
   (claim_C5_root_not_found lowerStr exTriples "animal" false (by decide)).2.1 (by decide)⟩

/-! ### Commit-mode result and node count -/

theorem upsertTriples_append (l1 l2 : List Op) :
    upsertTriples (l1 ++ l2) = upsertTriples l1 ++ upsertTriples l2 := by
  simp [upsertTriples]

mutual
theorem countUpserts_traverse : ∀ (t : JTree) (pid ptag : Option String) (level : Nat),
    allIdsNonempty t = true →
    countUpserts (traverse_and_upload t pid ptag level) = count_nodes t
  | JTree.node id label children, pid, ptag, level => by
    intro h
    simp only [allIdsNonempty, Bool.and_eq_true, Bool.not_eq_true', beq_eq_false_iff_ne,
      ne_eq] at h
    obtain ⟨h1, h2⟩ := h
    have hrec := countUpserts_children children id
      (if level ≤ 1 then sanitize_label label
        else (ptag.getD (sanitize_label label))) level h2
    simp only [traverse_and_upload, count_nodes, if_neg h1]
    simp only [countUpserts, upsertTriples] at hrec
    cases pid <;>
      simp [countUpserts, upsertTriples, upsertTriples_append, upload_node,
        create_relationship, hrec, Nat.add_comm]
theorem countUpserts_children : ∀ (f : JForest) (pid ptag : String) (level : Nat),
    allIdsNonemptyF f = true →
    countUpserts (traverse_children f pid ptag level) = count_forest f
  | JForest.nil, _, _, _ => by
    intro _
    rfl
  | JForest.cons c rest, pid, ptag, level => by
    intro h
    simp only [allIdsNonemptyF, Bool.and_eq_true] at h
    simp only [traverse_children, count_forest]
    rw [show countUpserts (traverse_and_upload c (some pid) (some ptag) (level + 1) ++
          traverse_children rest pid ptag level) =
        countUpserts (traverse_and_upload c (some pid) (some ptag) (level + 1)) +
          countUpserts (traverse_children rest pid ptag level) by
      simp [countUpserts, upsertTriples_append]]
    rw [countUpserts_traverse c (some pid) (some ptag) (level + 1) h.1,
      countUpserts_children rest pid ptag level h.2]
end

/-- C9: in commit mode with a successful parse, run_conversion returns the
success status carrying the total node count, computed before upload as the
sum of the recursive count_nodes over the built trees, and performs the reset
followed by one write transaction per tree; and provided every tree node
carries a non-empty id, that count equals the number of node-upsert
operations the write transactions contain. -/
theorem claim_C9_commit_count (ts : List Triple) (rl : Option String)
    (trees : List JTree) (h : parse_ttl_to_json ts rl = Except.ok trees) :
    run_conversion ts rl false =
      (Except.ok (ConvResult.success ((trees.map count_nodes).sum)),
        DBEffect.reset :: trees.map (fun tree =>
          DBEffect.writeTx (traverse_and_upload tree none none 0))) ∧
    ((∀ t ∈ trees, allIdsNonempty t = true) →
      (trees.map (fun tree => countUpserts (traverse_and_upload tree none none 0))).sum =
        (trees.map count_nodes).sum) := by
  constructor
  · unfold run_conversion run_conversion_folded
    unfold parse_ttl_to_json at h
    rw [h]
    rfl
  · intro hall
    have hmap : trees.map (fun tree => countUpserts (traverse_and_upload tree none none 0)) =
        trees.map count_nodes :=
      List.map_congr_left (fun t ht => countUpserts_traverse t none none 0 (hall t ht))
    rw [hmap]

/-- Witness for C9 at the Cat/Mammal/Animal graph: the parse succeeds with the
single tree, the commit run returns success with count 3 and the two effects,
and the upsert count of the one write transaction equals the node count. -/
theorem claim_C9_witness :
    run_conversion exTriples none false =
      (Except.ok (ConvResult.success (([exC2tree].map count_nodes).sum)),
        DBEffect.reset :: [exC2tree].map (fun tree =>
          DBEffect.writeTx (traverse_and_upload tree none none 0))) ∧
    ([exC2tree].map (fun tree => countUpserts (traverse_and_upload tree none none 0))).sum =
      ([exC2tree].map count_nodes).sum :=
  ⟨(claim_C9_commit_count exTriples none [exC2tree] rfl).1,
   (claim_C9_commit_count exTriples none [exC2tree] rfl).2 (by decide)⟩

/-! ### The tag assignment of the uploader -/

theorem annotate_some (t : JTree) (ptag : Option String) (level : Nat) (a : AnnTree)
    (h : annotate t ptag level = some a) :
    a.depth = level ∧
    (level ≤ 1 → a.tag = sanitize_label a.rawName) ∧
    (2 ≤ level → a.tag = ptag.getD (sanitize_label a.rawName)) := by
  obtain ⟨id, label, children⟩ := t
  by_cases hid : id = ""
  · simp [annotate, hid] at h
  · simp only [annotate, if_neg hid, Option.some.injEq] at h
    subst h
    refine ⟨rfl, ?_, ?_⟩
    · intro hle
      simp [AnnTree.tag, AnnTree.rawName, if_pos hle]
    · intro hge
      have hnle : ¬(level ≤ 1) := by omega
      simp [AnnTree.tag, AnnTree.rawName, if_neg hnle]

theorem annotateForest_mem : ∀ (f : JForest) (ptag : String) (level : Nat),
    ∀ c ∈ (annotateForest f ptag level).toList,
      c.depth = level + 1 ∧ (2 ≤ level + 1 → c.tag = ptag)
  | JForest.nil, ptag, level => by
    intro c hc
    simp [annotateForest, AnnForest.toList] at hc
  | JForest.cons t rest, ptag, level => by
    intro c hc
    cases ha : annotate t (some ptag) (level + 1) with
    | none =>
      simp only [annotateForest, ha] at hc
      exact annotateForest_mem rest ptag level c hc
    | some a =>
      simp only [annotateForest, ha, AnnForest.toList, List.mem_cons] at hc
      rcases hc with rfl | hc
      · have h2 := annotate_some t (some ptag) (level + 1) c ha
        exact ⟨h2.1, fun hge => by rw [h2.2.2 hge]; rfl⟩
      · exact annotateForest_mem rest ptag level c hc

mutual
theorem allAnn_tagInv : ∀ (t : JTree) (ptag : Option String) (level : Nat) (a b : AnnTree),
    annotate t ptag level = some a → b ∈ allAnn a →
    (b.depth ≤ 1 → b.tag = sanitize_label b.rawName) ∧
    (∀ c ∈ b.children.toList, 2 ≤ c.depth → c.tag = b.tag)
  | JTree.node id label children, ptag, level, a, b => by
    intro ha hb
    by_cases hid : id = ""
    · simp [annotate, hid] at ha
    · simp only [annotate, if_neg hid, Option.some.injEq] at ha
      subst ha
      simp only [allAnn, List.mem_cons] at hb
      rcases hb with rfl | hb
      · constructor
        · intro hle
          have hle' : level ≤ 1 := by simpa [AnnTree.depth] using hle
          simp [AnnTree.tag, AnnTree.rawName, if_pos hle']
        · intro c hc hcd
          have h3 := annotateForest_mem children
            (if level ≤ 1 then sanitize_label label else ptag.getD (sanitize_label label))
            level c (by simpa [AnnTree.children] using hc)
          rw [h3.1] at hcd
          rw [h3.2 hcd]
          rfl
      · exact allAnnForest_tagInv children
          (if level ≤ 1 then sanitize_label label else ptag.getD (sanitize_label label))
          level b hb
theorem allAnnForest_tagInv : ∀ (f : JForest) (ptag : String) (level : Nat) (b : AnnTree),
    b ∈ allAnnForest (annotateForest f ptag level) →
    (b.depth ≤ 1 → b.tag = sanitize_label b.rawName) ∧
    (∀ c ∈ b.children.toList, 2 ≤ c.depth → c.tag = b.tag)
  | JForest.nil, ptag, level, b => by
    intro hb
    simp [annotateForest, allAnnForest] at hb
  | JForest.cons t rest, ptag, level, b => by
    intro hb
    cases ha : annotate t (some ptag) (level + 1) with
    | none =>
      simp only [annotateForest, ha] at hb
      exact allAnnForest_tagInv rest ptag level b hb
    | some a =>
      simp only [annotateForest, ha, allAnnForest, List.mem_append] at hb
      rcases hb with hb | hb
      · exact allAnn_tagInv t (some ptag) (level + 1) a b ha hb
      · exact allAnnForest_tagInv rest ptag level b hb
end

theorem upsertTriples_cons_upsert (i n g : String) (ops : List Op) :
    upsertTriples (Op.upsert i n g :: ops) = (i, n, g) :: upsertTriples ops := by
  simp [upsertTriples]

theorem upsertTriples_cons_merge (p c : String) (ops : List Op) :
    upsertTriples (Op.mergeEdge p c :: ops) = upsertTriples ops := by
  simp [upsertTriples]

mutual
theorem upsertTriples_traverse : ∀ (t : JTree) (pid ptag : Option String) (level : Nat),
    upsertTriples (traverse_and_upload t pid ptag level) =
      ((annotate t ptag level).elim [] allAnn).map (fun b => (b.id, b.rawName, b.tag))
  | JTree.node id label children, pid, ptag, level => by
    by_cases hid : id = ""
    · simp [traverse_and_upload, annotate, hid, upsertTriples]
    · have hrec := upsertTriples_children children id
        (if level ≤ 1 then sanitize_label label else ptag.getD (sanitize_label label)) level
    -- the issued rows are the upsert of this node followed by the rows of the
    -- children; the merge operation contributes no row
      simp only [traverse_and_upload, annotate, if_neg hid, upload_node,
        create_relationship, Option.elim, allAnn]
      cases pid <;>
        simp only [upsertTriples_cons_upsert, upsertTriples_cons_merge,
          upsertTriples_append, List.nil_append, List.singleton_append, List.map_cons,
          AnnTree.id, AnnTree.rawName, AnnTree.tag, hrec]
theorem upsertTriples_children : ∀ (f : JForest) (pid ptag : String) (level : Nat),
    upsertTriples (traverse_children f pid ptag level) =
      (allAnnForest (annotateForest f ptag level)).map (fun b => (b.id, b.rawName, b.tag))
  | JForest.nil, _, _, _ => rfl
  | JForest.cons t rest, pid, ptag, level => by
    have h1 := upsertTriples_traverse t (some pid) (some ptag) (level + 1)
    have h2 := upsertTriples_children rest pid ptag level
    cases ha : annotate t (some ptag) (level + 1) with
    | none =>
      rw [ha] at h1
      simp only [Option.elim, List.map_nil] at h1
      simp only [traverse_children, annotateForest, ha, upsertTriples_append, h1, h2,
        List.nil_append]
    | some a =>
      rw [ha] at h1
      simp only [Option.elim] at h1
      simp only [traverse_children, annotateForest, ha, upsertTriples_append, h1, h2,
        allAnnForest, List.map_append]
end

/-- C1: for every uploaded tree, every visited node at depth 0 or 1 is
assigned its own sanitized label as its type tag, and every visited node at
depth 2 or more is assigned exactly the tag that was assigned to its parent;
moreover the upsert operations the uploader issues carry exactly these tags,
node by node in visit order. -/
theorem claim_C1_tag_rule (t : JTree) :
    (∀ a ∈ allAnnOf t,
      (a.depth ≤ 1 → a.tag = sanitize_label a.rawName) ∧
      (∀ c ∈ a.children.toList, 2 ≤ c.depth → c.tag = a.tag)) ∧
    upsertTriples (traverse_and_upload t none none 0) =
      (allAnnOf t).map (fun a => (a.id, a.rawName, a.tag)) := by
  constructor
  · intro a ha
    unfold allAnnOf at ha
    cases h : annotate t none 0 with
    | none =>
      rw [h] at ha
      simp at ha
    | some r =>
      rw [h] at ha
      exact allAnn_tagInv t none 0 r a h ha
  · have hlink := upsertTriples_traverse t none none 0
    unfold allAnnOf
    cases h : annotate t none 0 with
    | none =>
      rw [h] at hlink
      simpa using hlink
    | some r =>
      rw [h] at hlink
      simpa using hlink

/-- Witness for C1 on the Cat/Mammal/Animal tree: the root visit (depth 0)
carries its own sanitized label as tag, and the depth-2 visit carries the tag
assigned to its depth-1 parent. -/
theorem claim_C1_witness :
    ((AnnTree.node "ex#C" "Animal" "Animal" 0
        (AnnForest.cons (AnnTree.node "ex#B" "Mammal" "Mammal" 1
          (AnnForest.cons (AnnTree.node "ex#A" "Cat" "Mammal" 2 AnnForest.nil)
            AnnForest.nil)) AnnForest.nil)).tag =
      sanitize_label (AnnTree.node "ex#C" "Animal" "Animal" 0
        (AnnForest.cons (AnnTree.node "ex#B" "Mammal" "Mammal" 1
          (AnnForest.cons (AnnTree.node "ex#A" "Cat" "Mammal" 2 AnnForest.nil)
            AnnForest.nil)) AnnForest.nil)).rawName) ∧
    ((AnnTree.node "ex#A" "Cat" "Mammal" 2 AnnForest.nil).tag =
      (AnnTree.node "ex#B" "Mammal" "Mammal" 1
        (AnnForest.cons (AnnTree.node "ex#A" "Cat" "Mammal" 2 AnnForest.nil)
          AnnForest.nil)).tag) :=
  ⟨((claim_C1_tag_rule exC2tree).1 _ (List.mem_cons_self _ _)).1 (by decide),
   ((claim_C1_tag_rule exC2tree).1
      (AnnTree.node "ex#B" "Mammal" "Mammal" 1
        (AnnForest.cons (AnnTree.node "ex#A" "Cat" "Mammal" 2 AnnForest.nil)
          AnnForest.nil))
      (List.mem_cons_of_mem _ (List.mem_cons_self _ _))).2
    (AnnTree.node "ex#A" "Cat" "Mammal" 2 AnnForest.nil)
    (List.mem_cons_self _ _) (by decide)⟩

/-! ### Node-table lemmas for the upsert semantics -/

theorem matchKey_record_name (id tag nm : String) (n : DBNode) :
    matchKey id tag { n with name := nm } = matchKey id tag n := rfl

theorem hasKey_setName (ns : List DBNode) (id tag i g nm : String) :
    hasKey (setName ns id tag nm) i g = hasKey ns i g := by
  induction ns with
  | nil => rfl
  | cons n rest ih =>
    simp only [setName, List.map_cons, hasKey, List.any_cons] at ih ⊢
    have hm : matchKey i g (if matchKey id tag n = true then { n with name := nm } else n) =
        matchKey i g n := by
      split <;> rfl
    rw [hm, ih]

theorem hasKey_append (l1 l2 : List DBNode) (i g : String) :
    hasKey (l1 ++ l2) i g = (hasKey l1 i g || hasKey l2 i g) := by
  simp [hasKey]

theorem hasKey_upsertStep_self (ns : List DBNode) (id tag nm : String) :
    hasKey (upsertStep ns id tag nm) id tag = true := by
  unfold upsertStep
  by_cases h : hasKey ns id tag = true
  · rw [if_pos h, hasKey_setName, h]
  · rw [if_neg h, hasKey_append]
    have : hasKey [(⟨id, tag, nm⟩ : DBNode)] id tag = true := by
      simp [hasKey, matchKey]
    rw [this, Bool.or_true]

theorem hasKey_upsertStep_mono (ns : List DBNode) (id tag nm i g : String)
    (h : hasKey ns i g = true) :
    hasKey (upsertStep ns id tag nm) i g = true := by
  unfold upsertStep
  split
  · rwa [hasKey_setName]
  · rw [hasKey_append, h, Bool.true_or]

theorem hasKey_nodesApply_mono (i g : String) : ∀ (ops : List Op) (ns : List DBNode),
    hasKey ns i g = true → hasKey (nodesApply ops ns) i g = true
  | [], ns, h => h
  | Op.upsert id nm tag :: rest, ns, h =>
    hasKey_nodesApply_mono i g rest _ (hasKey_upsertStep_mono ns id tag nm i g h)
  | Op.mergeEdge _ _ :: rest, ns, h => hasKey_nodesApply_mono i g rest ns h

theorem setName_absent (ns : List DBNode) (id tag nm : String)
    (h : hasKey ns id tag = false) : setName ns id tag nm = ns := by
  induction ns with
  | nil => rfl
  | cons n rest ih =>
    simp only [hasKey, List.any_cons, Bool.or_eq_false_iff] at h
    simp only [setName, List.map_cons]
    rw [if_neg (by rw [h.1]; exact Bool.false_ne_true)]
    have := ih (by simp [hasKey, h.2])
    simp only [setName] at this
    rw [this]

theorem setName_setName (ns : List DBNode) (id tag nm nm' : String) :
    setName (setName ns id tag nm) id tag nm' = setName ns id tag nm' := by
  unfold setName
  rw [List.map_map]
  apply List.map_congr_left
  intro n _
  by_cases h : matchKey id tag n = true
  · simp [Function.comp, h, matchKey_record_name]
  · simp [Function.comp, h]

theorem matchKey_both_ne (id tag id' tag' : String) (n : DBNode)
    (hne : ¬(id = id' ∧ tag = tag'))
    (h1 : matchKey id tag n = true) : matchKey id' tag' n = false := by
  simp only [matchKey, Bool.and_eq_true, beq_iff_eq] at h1
  by_cases h2 : matchKey id' tag' n = true
  · simp only [matchKey, Bool.and_eq_true, beq_iff_eq] at h2
    exact absurd ⟨h1.1 ▸ h2.1.symm ▸ rfl, h1.2 ▸ h2.2.symm ▸ rfl⟩ hne
  · exact Bool.not_eq_true _ ▸ (by revert h2; cases matchKey id' tag' n <;> simp)

theorem setName_comm_ne (ns : List DBNode) (id tag nm id' tag' nm' : String)
    (hne : ¬(id = id' ∧ tag = tag')) :
    setName (setName ns id tag nm) id' tag' nm' = setName (setName ns id' tag' nm') id tag nm := by
  unfold setName
  rw [List.map_map, List.map_map]
  apply List.map_congr_left
  intro n _
  by_cases h1 : matchKey id tag n = true
  · have h2 : matchKey id' tag' n = false := matchKey_both_ne id tag id' tag' n hne h1
    simp [Function.comp, h1, h2, matchKey_record_name]
  · by_cases h2 : matchKey id' tag' n = true
    · simp [Function.comp, h1, h2, matchKey_record_name]
    · simp [Function.comp, h1, h2]

theorem setName_append (l1 l2 : List DBNode) (id tag nm : String) :
    setName (l1 ++ l2) id tag nm = setName l1 id tag nm ++ setName l2 id tag nm := by
  simp [setName]

theorem upsertStep_setName_comm (ns : List DBNode) (id tag nm id' tag' nm' : String)
    (hne : ¬(id = id' ∧ tag = tag')) :
    upsertStep (setName ns id tag nm) id' tag' nm' =
      setName (upsertStep ns id' tag' nm') id tag nm := by
  unfold upsertStep
  rw [hasKey_setName]
  by_cases h : hasKey ns id' tag' = true
  · rw [if_pos h, if_pos h]
    exact setName_comm_ne ns id tag nm id' tag' nm' hne
  · rw [if_neg h, if_neg h, setName_append]
    have hsingle : setName [(⟨id', tag', nm'⟩ : DBNode)] id tag nm =
        [(⟨id', tag', nm'⟩ : DBNode)] := by
      apply setName_absent
      simp only [hasKey, List.any_cons, List.any_nil, Bool.or_false]
      by_cases hm : matchKey id tag (⟨id', tag', nm'⟩ : DBNode) = true
      · exfalso
        simp only [matchKey, Bool.and_eq_true, beq_iff_eq] at hm
        exact hne ⟨hm.1.symm, hm.2.symm⟩
      · revert hm
        cases matchKey id tag (⟨id', tag', nm'⟩ : DBNode) <;> simp
    rw [hsingle]

/-! ### Replay lemmas: running the same upserts again -/

theorem replay_absorb (id tag nm : String) : ∀ (rest : List Op) (ns : List DBNode),
    hasUpsertKey id tag rest = true →
    nodesApply rest (setName ns id tag nm) = nodesApply rest ns
  | [], ns, h => by simp [hasUpsertKey] at h
  | Op.mergeEdge p c :: rest, ns, h => by
    simp only [hasUpsertKey] at h
    simp only [nodesApply]
    exact replay_absorb id tag nm rest ns h
  | Op.upsert i nm' g :: rest, ns, h => by
    simp only [nodesApply]
    by_cases hm : (i == id && g == tag) = true
    · simp only [Bool.and_eq_true, beq_iff_eq] at hm
      obtain ⟨rfl, rfl⟩ := hm
      by_cases hk : hasKey ns i g = true
      · have e1 : upsertStep (setName ns i g nm) i g nm' = upsertStep ns i g nm' := by
          unfold upsertStep
          rw [hasKey_setName, if_pos hk, if_pos hk, setName_setName]
        rw [e1]
      · have hk' : hasKey ns i g = false := by
          revert hk
          cases hasKey ns i g <;> simp
        rw [setName_absent ns i g nm hk']
    · have hne : ¬(id = i ∧ tag = g) := by
        intro hc
        apply hm
        simp [hc.1, hc.2]
      have hrest : hasUpsertKey id tag rest = true := by
        simp only [hasUpsertKey, Bool.or_eq_true] at h
        rcases h with h | h
        · exact absurd h hm
        · exact h
      rw [upsertStep_setName_comm ns id tag nm i g nm' hne]
      exact replay_absorb id tag nm rest _ hrest

theorem replay_commute (id tag nm : String) : ∀ (rest : List Op) (ns : List DBNode),
    hasUpsertKey id tag rest = false →
    nodesApply rest (setName ns id tag nm) = setName (nodesApply rest ns) id tag nm
  | [], ns, _ => rfl
  | Op.mergeEdge p c :: rest, ns, h => by
    simp only [hasUpsertKey] at h
    simp only [nodesApply]
    exact replay_commute id tag nm rest ns h
  | Op.upsert i nm' g :: rest, ns, h => by
    simp only [hasUpsertKey, Bool.or_eq_false_iff] at h
    have hne : ¬(id = i ∧ tag = g) := by
      intro hc
      have := h.1
      rw [hc.1, hc.2] at this
      simp at this
    simp only [nodesApply]
    rw [upsertStep_setName_comm ns id tag nm i g nm' hne]
    exact replay_commute id tag nm rest _ h.2

/-! ### Name saturation: after an upsert every matching node carries its name -/

theorem allName_setName_self (ns : List DBNode) (id tag nm : String) :
    allName (setName ns id tag nm) id tag nm = true := by
  induction ns with
  | nil => rfl
  | cons n rest ih =>
    simp only [setName, List.map_cons, allName, List.all_cons, Bool.and_eq_true] at ih ⊢
    constructor
    · by_cases h : matchKey id tag n = true
      · simp [h, matchKey_record_name]
      · simp [h]
    · exact ih

theorem allName_not_hasKey (ns : List DBNode) (id tag nm : String)
    (h : hasKey ns id tag = false) : allName ns id tag nm = true := by
  induction ns with
  | nil => rfl
  | cons n rest ih =>
    simp only [hasKey, List.any_cons, Bool.or_eq_false_iff] at h
    simp only [allName, List.all_cons, Bool.and_eq_true]
    constructor
    · rw [h.1]
      rfl
    · exact ih (by simp [hasKey, h.2])

theorem allName_upsertStep_self (ns : List DBNode) (id tag nm : String) :
    allName (upsertStep ns id tag nm) id tag nm = true := by
  unfold upsertStep
  split
  · exact allName_setName_self ns id tag nm
  · rename_i h
    have h' : hasKey ns id tag = false := by
      revert h
      cases hasKey ns id tag <;> simp
    simp only [allName, List.all_append]
    rw [Bool.and_eq_true]
    constructor
    · exact allName_not_hasKey ns id tag nm h'
    · simp [allName, matchKey]

theorem allName_append (l1 l2 : List DBNode) (id tag nm : String) :
    allName (l1 ++ l2) id tag nm = (allName l1 id tag nm && allName l2 id tag nm) := by
  simp [allName]

theorem allName_setName_other (ns : List DBNode) (id tag nm i g nm' : String)
    (hne : ¬(id = i ∧ tag = g)) (h : allName ns id tag nm = true) :
    allName (setName ns i g nm') id tag nm = true := by
  induction ns with
  | nil => rfl
  | cons n rest ih =>
    simp only [allName, List.all_cons, Bool.and_eq_true] at h
    simp only [setName, List.map_cons, allName, List.all_cons, Bool.and_eq_true]
    refine ⟨?_, by
      have := ih h.2
      simpa [allName, setName] using this⟩
    by_cases hm : matchKey i g n = true
    · have hm2 : matchKey id tag n = false := by
        by_cases hx : matchKey id tag n = true
        · exfalso
          simp only [matchKey, Bool.and_eq_true, beq_iff_eq] at hm hx
          exact hne ⟨hx.1.symm.trans hm.1, hx.2.symm.trans hm.2⟩
        · revert hx
          cases matchKey id tag n <;> simp
      simp [hm, matchKey_record_name, hm2]
    · simp only [if_neg hm]
      exact h.1

theorem allName_nodesApply (id tag nm : String) : ∀ (rest : List Op) (ns : List DBNode),
    hasUpsertKey id tag rest = false → allName ns id tag nm = true →
    allName (nodesApply rest ns) id tag nm = true
  | [], ns, _, h => h
  | Op.mergeEdge p c :: rest, ns, hu, h => by
    simp only [hasUpsertKey] at hu
    simp only [nodesApply]
    exact allName_nodesApply id tag nm rest ns hu h
  | Op.upsert i nm' g :: rest, ns, hu, h => by
    simp only [hasUpsertKey, Bool.or_eq_false_iff] at hu
    have hne : ¬(id = i ∧ tag = g) := by
      intro hc
      have := hu.1
      rw [hc.1, hc.2] at this
      simp at this
    simp only [nodesApply]
    apply allName_nodesApply id tag nm rest _ hu.2
    unfold upsertStep
    split
    · exact allName_setName_other ns id tag nm i g nm' hne h
    · rw [allName_append, Bool.and_eq_true]
      refine ⟨h, ?_⟩
      simp only [allName, List.all_cons, List.all_nil, Bool.and_true]
      have : matchKey id tag (⟨i, g, nm'⟩ : DBNode) = false := by
        by_cases hx : matchKey id tag (⟨i, g, nm'⟩ : DBNode) = true
        · exfalso
          simp only [matchKey, Bool.and_eq_true, beq_iff_eq] at hx
          exact hne ⟨hx.1.symm, hx.2.symm⟩
        · revert hx
          cases matchKey id tag (⟨i, g, nm'⟩ : DBNode) <;> simp
      rw [this]
      rfl

theorem setName_of_allName (ns : List DBNode) (id tag nm : String)
    (h : allName ns id tag nm = true) : setName ns id tag nm = ns := by
  induction ns with
  | nil => rfl
  | cons n rest ih =>
    simp only [allName, List.all_cons, Bool.and_eq_true] at h
    simp only [setName, List.map_cons]
    have htl : List.map (fun n => if matchKey id tag n = true then { n with name := nm } else n)
        rest = rest := by
      have := ih h.2
      simpa [setName] using this
    rw [htl]
    by_cases hm : matchKey id tag n = true
    · have hname : n.name = nm := by
        have := h.1
        rw [hm] at this
        simpa using this
      rw [if_pos hm]
      have : ({ n with name := nm } : DBNode) = n := by
        obtain ⟨a, b, c⟩ := n
        simp only at hname
        rw [hname]
      rw [this]
    · rw [if_neg hm]

/-! ### Idempotence of the node-table evolution -/

theorem upsertStep_of_hasKey (ns : List DBNode) (id tag nm : String)
    (h : hasKey ns id tag = true) : upsertStep ns id tag nm = setName ns id tag nm := by
  unfold upsertStep
  rw [if_pos h]

theorem nodesApply_idem : ∀ (ops : List Op) (ns : List DBNode),
    nodesApply ops (nodesApply ops ns) = nodesApply ops ns
  | [], ns => rfl
  | Op.mergeEdge p c :: rest, ns => by
    simp only [nodesApply]
    exact nodesApply_idem rest ns
  | Op.upsert id nm tag :: rest, ns => by
    simp only [nodesApply]
    have hX : hasKey (nodesApply rest (upsertStep ns id tag nm)) id tag = true :=
      hasKey_nodesApply_mono id tag rest _ (hasKey_upsertStep_self ns id tag nm)
    rw [upsertStep_of_hasKey _ id tag nm hX]
    by_cases hk : hasUpsertKey id tag rest = true
    · rw [replay_absorb id tag nm rest _ hk]
      exact nodesApply_idem rest _
    · have hk' : hasUpsertKey id tag rest = false := by
        revert hk
        cases hasUpsertKey id tag rest <;> simp
      rw [replay_commute id tag nm rest _ hk', nodesApply_idem rest _]
      apply setName_of_allName
      exact allName_nodesApply id tag nm rest _ hk' (allName_upsertStep_self ns id tag nm)

/-! ### Database-state lemmas for whole operation lists -/

theorem mergesOf_cons_upsert (i n g : String) (ops : List Op) :
    mergesOf (Op.upsert i n g :: ops) = mergesOf ops := by
  simp [mergesOf]

theorem mergesOf_cons_merge (p c : String) (ops : List Op) :
    mergesOf (Op.mergeEdge p c :: ops) = (p, c) :: mergesOf ops := by
  simp [mergesOf]

theorem applyOp_merge_nodes (db : GraphDB) (p c : String) :
    (applyOp db (Op.mergeEdge p c)).nodes = db.nodes := by
  simp only [applyOp]
  split <;> rfl

theorem applyOp_upsert_edges (db : GraphDB) (id nm tag : String) :
    (applyOp db (Op.upsert id nm tag)).edges = db.edges := rfl

theorem nodes_applyOps : ∀ (ops : List Op) (db : GraphDB),
    (applyOps ops db).nodes = nodesApply ops db.nodes
  | [], db => rfl
  | Op.upsert id nm tag :: rest, db => by
    simp only [nodesApply]
    exact nodes_applyOps rest _
  | Op.mergeEdge p c :: rest, db => by
    simp only [nodesApply]
    have hstep := nodes_applyOps rest (applyOp db (Op.mergeEdge p c))
    rw [applyOp_merge_nodes] at hstep
    exact hstep

theorem edges_applyOp_mono (db : GraphDB) (op : Op) (e : String × String)
    (h : e ∈ db.edges) : e ∈ (applyOp db op).edges := by
  cases op with
  | upsert id nm tag => exact h
  | mergeEdge p c =>
    simp only [applyOp]
    split
    · exact List.mem_append_left _ h
    · exact h

theorem edges_applyOps_mono : ∀ (ops : List Op) (db : GraphDB) (e : String × String),
    e ∈ db.edges → e ∈ (applyOps ops db).edges
  | [], _, _, h => h
  | op :: rest, db, e, h => edges_applyOps_mono rest _ e (edges_applyOp_mono db op e h)

theorem hasId_setName (ns : List DBNode) (id tag nm i : String) :
    hasId (setName ns id tag nm) i = hasId ns i := by
  induction ns with
  | nil => rfl
  | cons n rest ih =>
    simp only [setName, List.map_cons, hasId, List.any_cons] at ih ⊢
    have hm : (if matchKey id tag n = true then { n with name := nm } else n).id = n.id := by
      split <;> rfl
    rw [hm, ih]

theorem hasId_append (l1 l2 : List DBNode) (i : String) :
    hasId (l1 ++ l2) i = (hasId l1 i || hasId l2 i) := by
  simp [hasId]

theorem hasId_of_hasKey (ns : List DBNode) (id tag : String)
    (h : hasKey ns id tag = true) : hasId ns id = true := by
  simp only [hasKey, List.any_eq_true] at h
  obtain ⟨n, hn, hm⟩ := h
  simp only [matchKey, Bool.and_eq_true] at hm
  simp only [hasId, List.any_eq_true]
  exact ⟨n, hn, hm.1⟩

theorem hasId_upsertStep_self (ns : List DBNode) (id tag nm : String) :
    hasId (upsertStep ns id tag nm) id = true := by
  unfold upsertStep
  split
  · rename_i h
    rw [hasId_setName]
    exact hasId_of_hasKey ns id tag h
  · rw [hasId_append]
    have hone : hasId [(⟨id, tag, nm⟩ : DBNode)] id = true := by
      simp [hasId]
    rw [hone, Bool.or_true]

theorem hasId_upsertStep_mono (ns : List DBNode) (id tag nm i : String)
    (h : hasId ns i = true) : hasId (upsertStep ns id tag nm) i = true := by
  unfold upsertStep
  split
  · rwa [hasId_setName]
  · rw [hasId_append, h, Bool.true_or]

theorem hasId_applyOp_mono (db : GraphDB) (op : Op) (i : String)
    (h : hasId db.nodes i = true) : hasId (applyOp db op).nodes i = true := by
  cases op with
  | upsert id nm tag => exact hasId_upsertStep_mono db.nodes id tag nm i h
  | mergeEdge p c =>
    rw [applyOp_merge_nodes]
    exact h

/-! ### Grounded operation lists: merges find their endpoints, first and
second run -/

theorem grounded_merges_present : ∀ (ops : List Op) (known : List String) (db : GraphDB),
    groundedOps known ops = true →
    (∀ i, i ∈ known → hasId db.nodes i = true) →
    ∀ pc ∈ mergesOf ops, (pc.2, pc.1) ∈ (applyOps ops db).edges
  | [], _, _, _, _, pc, hpc => by simp [mergesOf] at hpc
  | Op.upsert id nm tag :: rest, known, db, hg, hk, pc, hpc => by
    simp only [groundedOps] at hg
    rw [mergesOf_cons_upsert] at hpc
    refine grounded_merges_present rest (id :: known) (applyOp db (Op.upsert id nm tag))
      hg ?_ pc hpc
    intro i hi
    rcases List.mem_cons.mp hi with rfl | hi
    · exact hasId_upsertStep_self db.nodes i tag nm
    · exact hasId_applyOp_mono db _ i (hk i hi)
  | Op.mergeEdge p c :: rest, known, db, hg, hk, pc, hpc => by
    simp only [groundedOps, Bool.and_eq_true, decide_eq_true_eq] at hg
    obtain ⟨⟨hp, hc⟩, hrest⟩ := hg
    have hpid := hk p hp
    have hcid := hk c hc
    have hin : (c, p) ∈ (applyOp db (Op.mergeEdge p c)).edges := by
      simp only [applyOp]
      split
      · exact List.mem_append_right _ (List.mem_singleton.mpr rfl)
      · rename_i hcond
        simp only [hpid, hcid, Bool.true_and, Bool.not_eq_true', decide_eq_false_iff_not,
          Decidable.not_not] at hcond
        exact hcond
    rw [mergesOf_cons_merge] at hpc
    rcases List.mem_cons.mp hpc with rfl | hpc2
    · exact edges_applyOps_mono rest _ (c, p) hin
    · refine grounded_merges_present rest known (applyOp db (Op.mergeEdge p c)) hrest ?_ pc hpc2
      intro i hi
      exact hasId_applyOp_mono db _ i (hk i hi)

theorem replay_edges : ∀ (ops : List Op) (db : GraphDB),
    (∀ pc ∈ mergesOf ops, (pc.2, pc.1) ∈ db.edges) → (applyOps ops db).edges = db.edges
  | [], _, _ => rfl
  | Op.upsert id nm tag :: rest, db, h => by
    have hrec := replay_edges rest (applyOp db (Op.upsert id nm tag))
      (fun pc hpc => by
        rw [applyOp_upsert_edges]
        exact h pc (by rw [mergesOf_cons_upsert]; exact hpc))
    rw [applyOp_upsert_edges] at hrec
    exact hrec
  | Op.mergeEdge p c :: rest, db, h => by
    have hcp : (c, p) ∈ db.edges := h (p, c) (by rw [mergesOf_cons_merge]; exact List.mem_cons_self _ _)
    have hstep : applyOp db (Op.mergeEdge p c) = db := by
      simp only [applyOp]
      rw [if_neg (by simp [hcp])]
    show (applyOps rest (applyOp db (Op.mergeEdge p c))).edges = db.edges
    rw [hstep]
    exact replay_edges rest db (fun pc hpc =>
      h pc (by rw [mergesOf_cons_merge]; exact List.mem_cons_of_mem _ hpc))

/-! ### The traversal issues only grounded operation lists -/

theorem mem_extendKnown (x : String) : ∀ (l : List Op) (known : List String),
    x ∈ known → x ∈ extendKnown known l
  | [], _, h => h
  | Op.upsert _ _ _ :: rest, known, h =>
    mem_extendKnown x rest _ (List.mem_cons_of_mem _ h)
  | Op.mergeEdge _ _ :: rest, _, h => mem_extendKnown x rest _ h

theorem groundedOps_append : ∀ (l1 l2 : List Op) (known : List String),
    groundedOps known (l1 ++ l2) =
      (groundedOps known l1 && groundedOps (extendKnown known l1) l2)
  | [], l2, known => by simp [groundedOps, extendKnown]
  | Op.upsert id nm tag :: rest, l2, known => by
    simp only [List.cons_append, groundedOps, extendKnown]
    exact groundedOps_append rest l2 (id :: known)
  | Op.mergeEdge p c :: rest, l2, known => by
    simp only [List.cons_append, groundedOps, extendKnown, List.append_eq]
    rw [groundedOps_append rest l2 known]
    simp [Bool.and_assoc]

mutual
theorem grounded_traverse : ∀ (t : JTree) (pid ptag : Option String) (level : Nat)
    (known : List String), (∀ p, pid = some p → p ∈ known) →
    groundedOps known (traverse_and_upload t pid ptag level) = true
  | JTree.node id label children, pid, ptag, level, known => by
    intro hpid
    by_cases hid : id = ""
    · simp [traverse_and_upload, hid, groundedOps]
    · cases pid with
      | none =>
        simp only [traverse_and_upload, if_neg hid, upload_node, create_relationship,
          List.nil_append, groundedOps]
        exact grounded_children children id _ level (id :: known)
          (List.mem_cons_self _ _)
      | some p =>
        simp only [traverse_and_upload, if_neg hid, upload_node, create_relationship,
          List.singleton_append, groundedOps]
        have hp : p ∈ (id :: known) := List.mem_cons_of_mem _ (hpid p rfl)
        rw [Bool.and_eq_true, Bool.and_eq_true]
        refine ⟨⟨by simpa using hp, by simp⟩, ?_⟩
        exact grounded_children children id _ level (id :: known)
          (List.mem_cons_self _ _)
theorem grounded_children : ∀ (f : JForest) (pid ptag : String) (level : Nat)
    (known : List String), pid ∈ known →
    groundedOps known (traverse_children f pid ptag level) = true
  | JForest.nil, _, _, _, _ => by
    intro _
    rfl
  | JForest.cons c rest, pid, ptag, level, known => by
    intro hpid
    simp only [traverse_children]
    rw [groundedOps_append, Bool.and_eq_true]
    constructor
    · exact grounded_traverse c (some pid) (some ptag) (level + 1) known
        (fun q hq => by cases hq; exact hpid)
    · exact grounded_children rest pid ptag level _
        (mem_extendKnown pid _ known hpid)
end

/-! ### No merge runs with a missing endpoint -/

theorem mergeFailures_zero : ∀ (ops : List Op) (known : List String) (db : GraphDB),
    groundedOps known ops = true →
    (∀ i, i ∈ known → hasId db.nodes i = true) →
    mergeFailures ops db = 0
  | [], _, _, _, _ => rfl
  | Op.upsert id nm tag :: rest, known, db, hg, hk => by
    simp only [groundedOps] at hg
    simp only [mergeFailures]
    refine mergeFailures_zero rest (id :: known) _ hg ?_
    intro i hi
    rcases List.mem_cons.mp hi with rfl | hi
    · exact hasId_upsertStep_self db.nodes i tag nm
    · exact hasId_applyOp_mono db _ i (hk i hi)
  | Op.mergeEdge p c :: rest, known, db, hg, hk => by
    simp only [groundedOps, Bool.and_eq_true, decide_eq_true_eq] at hg
    obtain ⟨⟨hp, hc⟩, hrest⟩ := hg
    simp only [mergeFailures]
    rw [if_pos (by rw [hk p hp, hk c hc]; rfl)]
    rw [Nat.zero_add]
    refine mergeFailures_zero rest known _ hrest ?_
    intro i hi
    exact hasId_applyOp_mono db _ i (hk i hi)

/-- C10: the operation list issued for any tree upload is grounded: every
edge merge is preceded, within the same traversal, by upserts of both of its
endpoint ids (the traversal upserts a node before merging its edge to the
already-upserted parent, then recurses into the children in order); as a
consequence, however the database looked before the upload, no edge merge
ever executes with a missing endpoint, so the merge precondition is never
violated. -/
theorem claim_C10_preorder_grounded (t : JTree) (db : GraphDB) :
    groundedOps [] (traverse_and_upload t none none 0) = true ∧
    mergeFailures (traverse_and_upload t none none 0) db = 0 := by
  have hg := grounded_traverse t none none 0 []
    (fun p hp => by cases hp)
  refine ⟨hg, mergeFailures_zero _ [] db hg ?_⟩
  intro i hi
  simp at hi

theorem graphdb_ext (a b : GraphDB) (h1 : a.nodes = b.nodes) (h2 : a.edges = b.edges) :
    a = b := by
  cases a
  cases b
  simp_all

/-- C6: uploading the same tree twice in sequence without an intervening
reset leaves the database in exactly the same state as uploading it once
(same node list and same edge list, hence the same counts): replayed upserts
match the nodes already merged under the same label/id key instead of
creating duplicates, and replayed edge merges find the SUBCLASS_OF pair
already present instead of adding a second one. -/
theorem claim_C6_idempotent_upload (t : JTree) (db : GraphDB) :
    applyOps (traverse_and_upload t none none 0)
        (applyOps (traverse_and_upload t none none 0) db) =
      applyOps (traverse_and_upload t none none 0) db := by
  apply graphdb_ext
  · rw [nodes_applyOps, nodes_applyOps]
    exact nodesApply_idem _ _
  · apply replay_edges
    intro pc hpc
    exact grounded_merges_present _ [] db
      (grounded_traverse t none none 0 [] (fun p hp => by cases hp))
      (fun i hi => by simp at hi) pc hpc
